import Mathlib

/-!
Shallow embedding of the conversational request pipeline of the wechat-bot
repository: the AI client (src/ai_client.py) and the inbound message-merge
logic (src/main.py).  Python integers are modelled as `Int`/`Nat`, floats as
`Rat`, dictionaries as association lists in insertion order, and the
asyncio event loop as explicit state passing over arrival-time-ordered
event lists.
-/

namespace WechatBot

/-- One chat message, as the dicts `{"role": r, "content": c}` built
throughout src/ai_client.py. -/
structure Msg where
  role : String
  content : String
  deriving Repr, DecidableEq

/-- The whitespace class of Python `str.strip` (common ASCII whitespace). -/
def is_py_space (c : Char) : Bool :=
  c = ' ' || c = '\t' || c = '\n' || c = '\r' || c = '\x0b' || c = '\x0c'

/-- Python `str.strip()` as used on reply text and memory fields in
src/ai_client.py. -/
def py_strip (s : String) : String :=
  ⟨((s.data.dropWhile is_py_space).reverse.dropWhile is_py_space).reverse⟩

/-- Python `str.lower()` restricted to the ASCII case mapping. -/
def py_lower (s : String) : String :=
  ⟨s.data.map Char.toLower⟩

/-- src/ai_client.py line 21: `DEFAULT_TIMEOUT_SEC = 10.0`. -/
def DEFAULT_TIMEOUT_SEC : ℚ := 10

/-- src/ai_client.py line 22: `MAX_TIMEOUT_SEC = 10.0`. -/
def MAX_TIMEOUT_SEC : ℚ := 10

/-- src/ai_client.py line 23: `MAX_RETRIES = 2`. -/
def MAX_RETRIES : ℤ := 2

/-- src/ai_client.py `_coerce_timeout` (lines 35-42).  `none` stands for an
input on which `float(value)` raises `TypeError`/`ValueError`. -/
def coerce_timeout (value : Option ℚ) : ℚ :=
  let val := match value with
    | none => DEFAULT_TIMEOUT_SEC
    | some v => v
  let val := if val ≤ 0 then DEFAULT_TIMEOUT_SEC else val
  min val MAX_TIMEOUT_SEC

/-- src/ai_client.py `_coerce_retries` (lines 45-52).  `none` stands for an
input on which `int(value)` raises `TypeError`/`ValueError`. -/
def coerce_retries (value : Option ℤ) : ℤ :=
  let val := match value with
    | none => MAX_RETRIES
    | some v => v
  let val := if val < 0 then 0 else val
  min val MAX_RETRIES

/-- src/ai_client.py `AIClient._estimate_text_tokens` (lines 438-447):
CJK characters cost one token each, the remaining characters cost
`max 1 (count / 4)` tokens in total when present. -/
def estimate_text_tokens (text : String) : ℕ :=
  if text = "" then 0
  else
    let cjk := (text.data.filter fun c => 0x4e00 ≤ c.toNat && c.toNat ≤ 0x9fff).length
    let ascii_count := text.data.length - cjk
    let ascii_tokens := if ascii_count = 0 then 0 else max 1 (ascii_count / 4)
    cjk + ascii_tokens

/-- src/ai_client.py `AIClient._estimate_message_tokens` (lines 449-451). -/
def estimate_message_tokens (m : Msg) : ℕ :=
  estimate_text_tokens m.content + 4

/-- src/ai_client.py `AIClient._estimate_messages_tokens` (lines 453-454). -/
def estimate_messages_tokens (l : List Msg) : ℕ :=
  (l.map estimate_message_tokens).sum

/-- The loop body of `AIClient._trim_history_by_tokens` (lines 461-471),
walking the reversed history and accumulating `kept`/`total` exactly as the
Python `for msg in reversed(history)` loop with its two `break`s. -/
def trim_go (max_tokens : ℤ) : List Msg → ℤ → List Msg → List Msg
  | [], _, kept => kept
  | msg :: rest, total, kept =>
    let t : ℤ := estimate_message_tokens msg
    if total + t > max_tokens ∧ kept ≠ [] then kept
    else if total + t ≥ max_tokens then kept ++ [msg]
    else trim_go max_tokens rest (total + t) (kept ++ [msg])

/-- src/ai_client.py `AIClient._trim_history_by_tokens` (lines 456-471). -/
def trim_history_by_tokens (history : List Msg) (max_tokens : ℤ) : List Msg :=
  if history = [] ∨ max_tokens ≤ 0 then []
  else (trim_go max_tokens history.reverse 0 []).reverse

/-- The trim loop only ever extends `kept` by an initial segment of the
remaining (already reversed) input. -/
lemma trim_go_shape (mt : ℤ) :
    ∀ (rest : List Msg) (total : ℤ) (kept : List Msg),
      ∃ n, trim_go mt rest total kept = kept ++ rest.take n := by
  intro rest
  induction rest with
  | nil => exact fun total kept => ⟨0, by simp [trim_go]⟩
  | cons msg rest ih =>
    intro total kept
    by_cases h1 : total + (estimate_message_tokens msg : ℤ) > mt ∧ kept ≠ []
    · exact ⟨0, by simp [trim_go, h1]⟩
    · by_cases h2 : total + (estimate_message_tokens msg : ℤ) ≥ mt
      · exact ⟨1, by simp [trim_go, h1, h2]⟩
      · obtain ⟨n, hn⟩ := ih (total + (estimate_message_tokens msg : ℤ)) (kept ++ [msg])
        exact ⟨n + 1, by simp [trim_go, h1, h2, hn]⟩

/-- Cost invariant of the trim loop: starting strictly under budget with a
consistent accumulator, the final selection is within budget unless it is a
single over-budget message. -/
lemma trim_go_cost (mt : ℤ) :
    ∀ (rest : List Msg) (total : ℤ) (kept : List Msg),
      total = (estimate_messages_tokens kept : ℤ) → total < mt →
      (estimate_messages_tokens (trim_go mt rest total kept) : ℤ) ≤ mt ∨
        ∃ m, trim_go mt rest total kept = [m] ∧ mt < (estimate_message_tokens m : ℤ) := by
  intro rest
  induction rest with
  | nil =>
    intro total kept htot hlt
    left
    simpa [trim_go, ← htot] using le_of_lt hlt
  | cons msg rest ih =>
    intro total kept htot hlt
    by_cases h1 : total + (estimate_message_tokens msg : ℤ) > mt ∧ kept ≠ []
    · left
      simpa [trim_go, h1, ← htot] using le_of_lt hlt
    · by_cases h2 : total + (estimate_message_tokens msg : ℤ) ≥ mt
      · rcases lt_or_eq_of_le h2 with hgt | heq
        · -- strictly over budget: `kept` must be empty, the result is `[msg]`
          have hkept : kept = [] := by
            by_contra hne
            exact h1 ⟨hgt, hne⟩
          right
          refine ⟨msg, by simp [trim_go, h1, h2, hkept], ?_⟩
          have : total = 0 := by simp [htot, hkept, estimate_messages_tokens]
          omega
        · left
          have hsum : (estimate_messages_tokens (kept ++ [msg]) : ℤ) =
              total + (estimate_message_tokens msg : ℤ) := by
            simp [estimate_messages_tokens, htot]
          have hres : trim_go mt (msg :: rest) total kept = kept ++ [msg] := by
            simp [trim_go, h1, h2]
          rw [hres, hsum]
          exact le_of_eq heq.symm
      · have hrec := ih (total + (estimate_message_tokens msg : ℤ)) (kept ++ [msg])
          (by simp [estimate_messages_tokens, htot])
          (lt_of_not_ge h2)
        simpa [trim_go, h1, h2] using hrec

/-- With an empty accumulator and a non-empty input the trim loop returns a
non-empty selection. -/
lemma trim_go_cons_ne_nil (mt : ℤ) (msg : Msg) (rest : List Msg) (total : ℤ) :
    trim_go mt (msg :: rest) total [] ≠ [] := by
  have h1 : ¬(total + (estimate_message_tokens msg : ℤ) > mt ∧ ([] : List Msg) ≠ []) := by
    simp
  by_cases h2 : total + (estimate_message_tokens msg : ℤ) ≥ mt
  · simp [trim_go, h1, h2]
  · obtain ⟨n, hn⟩ := trim_go_shape mt rest (total + (estimate_message_tokens msg : ℤ)) [msg]
    simp only [trim_go, h1, h2, if_false, ite_false]
    simp [hn]

/-- The trimmed history is always a contiguous suffix of the input. -/
lemma trim_history_suffix (h : List Msg) (b : ℤ) :
    trim_history_by_tokens h b <:+ h := by
  unfold trim_history_by_tokens
  by_cases hc : h = [] ∨ b ≤ 0
  · simp [hc]
  · simp only [hc, if_false, ite_false]
    obtain ⟨n, hn⟩ := trim_go_shape b h.reverse 0 []
    rw [hn]
    exact ⟨(h.reverse.drop n).reverse, by
      rw [List.nil_append, ← List.reverse_append, List.take_append_drop,
        List.reverse_reverse]⟩

/-- C2: `_trim_history_by_tokens` returns a contiguous suffix of its input
whose estimated cost is within the budget, always keeps the most recent
message when the budget is positive and the input non-empty (even if that
single message alone is over budget), and returns `[]` when the budget is
non-positive. -/
theorem trim_history_by_tokens_spec (h : List Msg) (b : ℤ) :
    trim_history_by_tokens h b <:+ h ∧
    (b ≤ 0 → trim_history_by_tokens h b = []) ∧
    (0 < b → h ≠ [] →
      trim_history_by_tokens h b ≠ [] ∧
      (trim_history_by_tokens h b).getLast? = h.getLast? ∧
      ((estimate_messages_tokens (trim_history_by_tokens h b) : ℤ) ≤ b ∨
        ∃ m, trim_history_by_tokens h b = [m] ∧ b < (estimate_message_tokens m : ℤ))) := by
  refine ⟨trim_history_suffix h b, fun hb => by simp [trim_history_by_tokens, hb], ?_⟩
  intro hb hne
  have hcond : ¬(h = [] ∨ b ≤ 0) := by
    push_neg
    exact ⟨hne, hb⟩
  have hrev : h.reverse ≠ [] := by simpa using hne
  obtain ⟨msg, rest, hcons⟩ := List.exists_cons_of_ne_nil hrev
  have hne' : trim_history_by_tokens h b ≠ [] := by
    unfold trim_history_by_tokens
    simp only [hcond, if_false, ite_false]
    rw [hcons]
    simpa using trim_go_cons_ne_nil b msg rest 0
  refine ⟨hne', ?_, ?_⟩
  · obtain ⟨pre, hpre⟩ := trim_history_suffix h b
    conv_rhs => rw [← hpre]
    exact (List.getLast?_append_of_ne_nil pre hne').symm
  · have hcost := trim_go_cost b h.reverse 0 []
      (by simp [estimate_messages_tokens]) (by exact_mod_cast hb)
    unfold trim_history_by_tokens
    simp only [hcond, if_false, ite_false]
    rcases hcost with hle | ⟨m, hm, hmt⟩
    · left
      have : estimate_messages_tokens (trim_go b h.reverse 0 []).reverse =
          estimate_messages_tokens (trim_go b h.reverse 0 []) := by
        simp [estimate_messages_tokens, List.map_reverse, List.sum_reverse]
      rw [this]
      exact hle
    · right
      exact ⟨m, by rw [hm]; rfl, hmt⟩

/-- Response body of one HTTP POST, as inspected by
`AIClient.generate_reply` (lines 196-211): either not JSON, or a JSON
object with an optional error envelope and the extracted
`choices[0].message.content` string (`""` when absent, matching the
`.get(..., "")` defaults). -/
inductive JsonBody
  | notJson (text : String)
  | json (error : Option String) (content : String)
  deriving Repr, DecidableEq

/-- Outcome of one `client.post` call: a raised transport exception, or a
response with a status code and a body. -/
inductive TransportResult
  | exn (msg : String)
  | resp (status : ℕ) (body : JsonBody)
  deriving Repr, DecidableEq

/-- One attempt of `AIClient.generate_reply` (lines 187-214): HTTP error
statuses, non-JSON bodies, JSON error envelopes and empty/whitespace-only
content all raise (become `.error`); otherwise the stripped content is
returned. -/
def attempt_once : TransportResult → Except String String
  | .exn m => .error m
  | .resp status body =>
    if 400 ≤ status then .error ("HTTP " ++ toString status)
    else
      match body with
      | .notJson t => .error ("response is not JSON: " ++ t)
      | .json (some e) _ => .error ("api error: " ++ e)
      | .json none content =>
        let reply := py_strip content
        if reply = "" then .error "empty AI reply" else .ok reply

/-- The backoff delay computed at line 217: `wait = 0.6 * (1.5 ** attempt)`. -/
def backoff_wait (attempt : ℕ) : ℚ :=
  (6 / 10) * (3 / 2) ^ attempt

/-- Result of a full `generate_reply` call: the returned reply (`none` for
the Python `None`), the number of HTTP attempts made, the backoff sleeps
performed in order, the final `last_error` (logged at line 222 on
exhaustion), and the `(user_text, reply)` pairs passed to
`_append_history`. -/
structure GenResult where
  reply : Option String
  attempts : ℕ
  sleeps : List ℚ
  last_error : Option String
  appends : List (String × String)
  deriving Repr, DecidableEq

/-- The retry loop of `AIClient.generate_reply` (lines 185-223), with the
transport modelled as the sequence of outcomes of the successive
`client.post` calls.  `fuel` is the number of loop iterations still
allowed (`max_retries + 1` at entry), `attempt` the current index. -/
def gen_go (transport : ℕ → TransportResult) (user_text : String) (max_retries : ℕ) :
    ℕ → ℕ → List ℚ → Option String → GenResult
  | 0, attempt, sleeps, last_err =>
    { reply := none, attempts := attempt, sleeps := sleeps,
      last_error := last_err, appends := [] }
  | fuel + 1, attempt, sleeps, last_err =>
    match attempt_once (transport attempt) with
    | .ok reply =>
      { reply := some reply, attempts := attempt + 1, sleeps := sleeps,
        last_error := last_err, appends := [(user_text, reply)] }
    | .error e =>
      if attempt < max_retries then
        gen_go transport user_text max_retries fuel (attempt + 1)
          (sleeps ++ [backoff_wait attempt]) (some e)
      else
        gen_go transport user_text max_retries fuel (attempt + 1) sleeps (some e)

/-- Embeds `AIClient.generate_reply` (lines 185-223): `for attempt in
range(self.max_retries + 1)` with the payload already built. -/
def generate_reply (transport : ℕ → TransportResult) (user_text : String)
    (max_retries : ℕ) : GenResult :=
  gen_go transport user_text max_retries (max_retries + 1) 0 [] none

/-- One failed iteration of the retry loop. -/
lemma gen_go_err_step (t : ℕ → TransportResult) (u : String) (mr : ℕ)
    (fuel attempt : ℕ) (sleeps : List ℚ) (last_err : Option String) (e : String)
    (he : attempt_once (t attempt) = .error e) :
    gen_go t u mr (fuel + 1) attempt sleeps last_err =
      if attempt < mr then
        gen_go t u mr fuel (attempt + 1) (sleeps ++ [backoff_wait attempt]) (some e)
      else gen_go t u mr fuel (attempt + 1) sleeps (some e) := by
  simp [gen_go, he]

/-- One successful iteration of the retry loop. -/
lemma gen_go_ok_step (t : ℕ → TransportResult) (u : String) (mr : ℕ)
    (fuel attempt : ℕ) (sleeps : List ℚ) (last_err : Option String) (r : String)
    (he : attempt_once (t attempt) = .ok r) :
    gen_go t u mr (fuel + 1) attempt sleeps last_err =
      { reply := some r, attempts := attempt + 1, sleeps := sleeps,
        last_error := last_err, appends := [(u, r)] } := by
  simp [gen_go, he]

/-- Running the retry loop when every remaining attempt fails: it performs
all remaining attempts, sleeps after every failed attempt except the last,
and ends carrying the last failure. -/
lemma gen_go_all_fail (t : ℕ → TransportResult) (u : String) (mr : ℕ) (errf : ℕ → String)
    (herr : ∀ k, k ≤ mr → attempt_once (t k) = .error (errf k)) :
    ∀ (fuel attempt : ℕ) (sleeps : List ℚ) (last_err : Option String),
      attempt + (fuel + 1) = mr + 1 →
      gen_go t u mr (fuel + 1) attempt sleeps last_err =
        { reply := none, attempts := mr + 1,
          sleeps := sleeps ++ (List.range' attempt (mr - attempt)).map backoff_wait,
          last_error := some (errf mr), appends := [] } := by
  intro fuel
  induction fuel with
  | zero =>
    intro attempt sleeps last_err hsum
    have ha : attempt = mr := by omega
    subst ha
    rw [gen_go_err_step t u attempt 0 attempt sleeps last_err (errf attempt)
      (herr attempt le_rfl)]
    simp [gen_go]
  | succ fuel ih =>
    intro attempt sleeps last_err hsum
    have hamr : attempt < mr := by omega
    have hstep := ih (attempt + 1) (sleeps ++ [backoff_wait attempt]) (some (errf attempt))
      (by omega)
    have hrange : (List.range' attempt (mr - attempt)).map backoff_wait =
        backoff_wait attempt :: (List.range' (attempt + 1) (mr - (attempt + 1))).map backoff_wait := by
      have h1 : mr - attempt = (mr - (attempt + 1)) + 1 := by omega
      rw [h1, List.range'_succ attempt (mr - (attempt + 1)) 1]
      simp
    rw [gen_go_err_step t u mr (fuel + 1) attempt sleeps last_err (errf attempt)
      (herr attempt (le_of_lt hamr)), if_pos hamr, hstep, hrange]
    simp

/-- Running the retry loop when attempt `k` is the first success: the loop
stops there and returns that attempt's reply. -/
lemma gen_go_success (t : ℕ → TransportResult) (u : String) (mr : ℕ) (errf : ℕ → String)
    (k : ℕ) (r : String) (hk : attempt_once (t k) = .ok r) :
    ∀ (fuel attempt : ℕ) (sleeps : List ℚ) (last_err : Option String),
      attempt + fuel = mr + 1 → attempt ≤ k → k ≤ mr →
      (∀ j, attempt ≤ j → j < k → attempt_once (t j) = .error (errf j)) →
      (gen_go t u mr fuel attempt sleeps last_err).reply = some r ∧
      (gen_go t u mr fuel attempt sleeps last_err).attempts = k + 1 ∧
      (gen_go t u mr fuel attempt sleeps last_err).sleeps =
        sleeps ++ (List.range' attempt (k - attempt)).map backoff_wait ∧
      (gen_go t u mr fuel attempt sleeps last_err).appends = [(u, r)] := by
  intro fuel
  induction fuel with
  | zero =>
    intro attempt sleeps last_err hsum hak hkmr herr
    omega
  | succ fuel ih =>
    intro attempt sleeps last_err hsum hak hkmr herr
    rcases eq_or_lt_of_le hak with hek | hlt
    · subst hek
      rw [gen_go_ok_step t u mr fuel attempt sleeps last_err r hk]
      simp
    · have hamr : attempt < mr := lt_of_lt_of_le hlt hkmr
      have hrange : (List.range' attempt (k - attempt)).map backoff_wait =
          backoff_wait attempt :: (List.range' (attempt + 1) (k - (attempt + 1))).map backoff_wait := by
        have h1 : k - attempt = (k - (attempt + 1)) + 1 := by omega
        rw [h1, List.range'_succ attempt (k - (attempt + 1)) 1]
        simp
      have hstep := ih (attempt + 1) (sleeps ++ [backoff_wait attempt]) (some (errf attempt))
        (by omega) hlt hkmr (fun j hj hjk => herr j (by omega) hjk)
      rw [gen_go_err_step t u mr fuel attempt sleeps last_err (errf attempt)
        (herr attempt le_rfl hlt), if_pos hamr, hrange]
      refine ⟨hstep.1, hstep.2.1, ?_, hstep.2.2.2⟩
      rw [hstep.2.2.1]
      simp

/-- The backoff delays are strictly increasing in the attempt index. -/
lemma backoff_wait_strict_mono {i j : ℕ} (h : i < j) : backoff_wait i < backoff_wait j := by
  unfold backoff_wait
  have hpow : ((3 : ℚ) / 2) ^ i < ((3 : ℚ) / 2) ^ j :=
    pow_lt_pow_right₀ (by norm_num) h
  nlinarith

/-- C3: with `max_retries = n`, a request whose attempts all fail makes
exactly `n + 1` HTTP attempts, sleeping `0.6 * 1.5 ^ k` after the `k`-th
failed attempt and never after the final one, so the successive waits are
strictly increasing; a first successful attempt stops the loop and its
reply is returned. -/
theorem generate_reply_retry_spec (t : ℕ → TransportResult) (u : String) (n : ℕ)
    (errf : ℕ → String) :
    ((∀ k, k ≤ n → attempt_once (t k) = .error (errf k)) →
      (generate_reply t u n).attempts = n + 1 ∧
      (generate_reply t u n).sleeps = (List.range n).map backoff_wait ∧
      (generate_reply t u n).sleeps.Pairwise (· < ·) ∧
      (generate_reply t u n).reply = none) ∧
    (∀ k r, k ≤ n → (∀ j, j < k → attempt_once (t j) = .error (errf j)) →
      attempt_once (t k) = .ok r →
      (generate_reply t u n).reply = some r ∧
      (generate_reply t u n).attempts = k + 1 ∧
      (generate_reply t u n).sleeps = (List.range k).map backoff_wait) := by
  constructor
  · intro hall
    have h := gen_go_all_fail t u n errf hall n 0 [] none (by omega)
    unfold generate_reply
    rw [h]
    refine ⟨rfl, ?_, ?_, rfl⟩
    · simp [List.range_eq_range']
    · simp only [List.nil_append]
      exact List.Pairwise.map backoff_wait
        (fun a b hab => backoff_wait_strict_mono hab)
        (by rw [← List.range_eq_range']; exact List.pairwise_lt_range n)
  · intro k r hk herr hok
    have h := gen_go_success t u n errf k r hok (n + 1) 0 [] none (by omega)
      (Nat.zero_le k) hk (fun j _ hjk => herr j hjk)
    unfold generate_reply
    refine ⟨h.1, h.2.1, ?_⟩
    rw [h.2.2.1]
    simp [List.range_eq_range']

/-- Witness for `generate_reply_retry_spec` at concrete transports: one
that always raises, and one that fails once then succeeds. -/
theorem generate_reply_retry_spec_witness :
    (generate_reply (fun _ => .exn "boom") "u" 2).attempts = 3 ∧
    (generate_reply (fun k => if k = 0 then .exn "boom"
      else .resp 200 (.json none "ok")) "u" 2).reply = some "ok" := by
  constructor
  · exact ((generate_reply_retry_spec (fun _ => .exn "boom") "u" 2 (fun _ => "boom")).1
      (fun k _ => rfl)).1
  · exact ((generate_reply_retry_spec
        (fun k => if k = 0 then .exn "boom" else .resp 200 (.json none "ok"))
        "u" 2 (fun _ => "boom")).2 1 "ok" (by omega)
      (fun j hj => by interval_cases j; rfl) rfl).1

/-- C5: when every attempt of a synchronous send fails, the call returns
`none` (the Python `None`, no exception escapes the loop), the logged
terminal error is the last attempt's failure, and nothing is handed to
`_append_history`. -/
theorem generate_reply_exhaustion_spec (t : ℕ → TransportResult) (u : String) (n : ℕ)
    (errf : ℕ → String)
    (hall : ∀ k, k ≤ n → attempt_once (t k) = .error (errf k)) :
    (generate_reply t u n).reply = none ∧
    (generate_reply t u n).last_error = some (errf n) ∧
    (generate_reply t u n).appends = [] := by
  have h := gen_go_all_fail t u n errf hall n 0 [] none (by omega)
  unfold generate_reply
  rw [h]
  exact ⟨rfl, rfl, rfl⟩

/-- Witness for `generate_reply_exhaustion_spec`: a transport whose three
attempts fail as HTTP 500, non-JSON, and empty content in turn. -/
theorem generate_reply_exhaustion_spec_witness :
    (generate_reply (fun k => if k = 0 then .resp 500 (.json none "x")
      else if k = 1 then .resp 200 (.notJson "<html>")
      else .resp 200 (.json none "   ")) "u" 2).reply = none ∧
    (generate_reply (fun k => if k = 0 then .resp 500 (.json none "x")
      else if k = 1 then .resp 200 (.notJson "<html>")
      else .resp 200 (.json none "   ")) "u" 2).appends = [] := by
  have h := generate_reply_exhaustion_spec
    (fun k => if k = 0 then .resp 500 (.json none "x")
      else if k = 1 then .resp 200 (.notJson "<html>")
      else .resp 200 (.json none "   ")) "u" 2
    (fun k => if k = 0 then "HTTP 500"
      else if k = 1 then "response is not JSON: <html>" else "empty AI reply")
    (fun k hk => by interval_cases k <;> rfl)
  exact ⟨h.1, h.2.2⟩

/-- The retry loop never performs more iterations than its fuel allows. -/
lemma gen_go_attempts_le (t : ℕ → TransportResult) (u : String) (mr : ℕ) :
    ∀ (fuel attempt : ℕ) (sleeps : List ℚ) (last_err : Option String),
      (gen_go t u mr fuel attempt sleeps last_err).attempts ≤ attempt + fuel := by
  intro fuel
  induction fuel with
  | zero =>
    intro attempt sleeps last_err
    simp [gen_go]
  | succ fuel ih =>
    intro attempt sleeps last_err
    cases h : attempt_once (t attempt) with
    | ok r =>
      rw [gen_go_ok_step t u mr fuel attempt sleeps last_err r h]
      simp
    | error e =>
      rw [gen_go_err_step t u mr fuel attempt sleeps last_err e h]
      by_cases hlt : attempt < mr
      · rw [if_pos hlt]
        exact le_trans (ih (attempt + 1) (sleeps ++ [backoff_wait attempt]) (some e))
          (by omega)
      · rw [if_neg hlt]
        exact le_trans (ih (attempt + 1) sleeps (some e)) (by omega)

/-- C9: for every constructor input, the coerced per-call timeout lies in
`(0, 10]`, the coerced retry count lies in `[0, 2]`, and consequently no
single `generate_reply` call makes more than 3 HTTP attempts. -/
theorem coerce_config_spec (vt : Option ℚ) (vr : Option ℤ) :
    0 < coerce_timeout vt ∧ coerce_timeout vt ≤ 10 ∧
    0 ≤ coerce_retries vr ∧ coerce_retries vr ≤ 2 ∧
    (∀ (t : ℕ → TransportResult) (u : String),
      (generate_reply t u (coerce_retries vr).toNat).attempts ≤ 3) := by
  have htime : 0 < coerce_timeout vt ∧ coerce_timeout vt ≤ 10 := by
    cases vt with
    | none => constructor <;> norm_num [coerce_timeout, DEFAULT_TIMEOUT_SEC, MAX_TIMEOUT_SEC]
    | some v =>
      by_cases hv : v ≤ 0
      · constructor <;>
          norm_num [coerce_timeout, DEFAULT_TIMEOUT_SEC, MAX_TIMEOUT_SEC, hv]
      · refine ⟨?_, ?_⟩
        · simp only [coerce_timeout, MAX_TIMEOUT_SEC, hv, if_false, ite_false]
          exact lt_min (lt_of_not_ge hv) (by norm_num)
        · simp only [coerce_timeout, MAX_TIMEOUT_SEC, hv, if_false, ite_false]
          exact min_le_right v 10
  have hretry : 0 ≤ coerce_retries vr ∧ coerce_retries vr ≤ 2 := by
    cases vr with
    | none => constructor <;> norm_num [coerce_retries, MAX_RETRIES]
    | some v =>
      by_cases hv : v < 0
      · constructor <;> norm_num [coerce_retries, MAX_RETRIES, hv]
      · refine ⟨?_, ?_⟩
        · simp only [coerce_retries, MAX_RETRIES, hv, if_false, ite_false]
          exact le_min (le_of_not_lt hv) (by norm_num)
        · simp only [coerce_retries, MAX_RETRIES, hv, if_false, ite_false]
          exact min_le_right v 2
  refine ⟨htime.1, htime.2, hretry.1, hretry.2, ?_⟩
  intro t u
  have hbound := gen_go_attempts_le t u (coerce_retries vr).toNat
    ((coerce_retries vr).toNat + 1) 0 [] none
  have hle : (coerce_retries vr).toNat ≤ 2 := by
    have := hretry.2
    omega
  exact le_trans hbound (by omega)

/-- Witness for `trim_history_by_tokens_spec` at a one-message history
with budgets `0` and `1` (the single message costs 5 > 1, yet is kept). -/
theorem trim_history_by_tokens_spec_witness :
    trim_history_by_tokens [⟨"user", "hello"⟩] 0 = [] ∧
    trim_history_by_tokens [⟨"user", "hello"⟩] 1 ≠ [] := by
  constructor
  · exact (trim_history_by_tokens_spec [⟨"user", "hello"⟩] 0).2.1 (by norm_num)
  · exact ((trim_history_by_tokens_spec [⟨"user", "hello"⟩] 1).2.2 (by norm_num)
      (by simp)).1

/-- One entry of the `memory_context` iterable fed to
`AIClient._normalize_memory_context` (lines 328-347): either not a dict, or
a dict whose `"role"` / `"content"` slots are absent-or-`None` (`none`) or a
string.  (`str()` of other Python values is absorbed into the string case.) -/
inductive MemEntry
  | notDict
  | entry (role : Option String) (content : Option String)
  deriving Repr, DecidableEq

/-- The per-entry body of the `for msg in memory_context` loop in
`_normalize_memory_context`: `none` when the entry is skipped by one of the
`continue`s, otherwise the cleaned `{"role", "content"}` dict. -/
def normalize_one : MemEntry → Option Msg
  | .notDict => none
  | .entry role? content? =>
    let role := py_lower (py_strip (role?.getD ""))
    match content? with
    | none => none
    | some c =>
      if role = "" then none
      else
        let content := py_strip c
        if content = "" then none
        else
          some ⟨if role = "user" ∨ role = "assistant" ∨ role = "system" then role
                else "user", content⟩

/-- Embeds `AIClient._normalize_memory_context` (lines 328-347). -/
def normalize_memory_context (ctx : List MemEntry) : List Msg :=
  ctx.filterMap normalize_one

/-- C10: every message surviving memory normalization has role `user`,
`assistant` or `system` and non-empty content; non-dict entries, entries
without a usable role, and entries with absent or whitespace-only content
are dropped, and any other role is replaced by `user`. -/
theorem normalize_memory_context_spec (ctx : List MemEntry) :
    (∀ m ∈ normalize_memory_context ctx,
      (m.role = "user" ∨ m.role = "assistant" ∨ m.role = "system") ∧ m.content ≠ "") ∧
    normalize_one .notDict = none ∧
    (∀ r, normalize_one (.entry r none) = none) ∧
    (∀ r c, py_strip c = "" → normalize_one (.entry r (some c)) = none) ∧
    (∀ r c, py_lower (py_strip (r.getD "")) = "" →
      normalize_one (.entry r c) = none) ∧
    (∀ r c, py_strip c ≠ "" →
      let role := py_lower (py_strip (r.getD ""))
      role ≠ "" → ¬(role = "user" ∨ role = "assistant" ∨ role = "system") →
      normalize_one (.entry r (some c)) = some ⟨"user", py_strip c⟩) := by
  refine ⟨?_, rfl, fun r => rfl, ?_, ?_, ?_⟩
  · intro m hm
    rw [normalize_memory_context, List.mem_filterMap] at hm
    obtain ⟨e, _, he⟩ := hm
    cases e with
    | notDict => simp [normalize_one] at he
    | entry role? content? =>
      cases content? with
      | none => simp [normalize_one] at he
      | some c =>
        simp only [normalize_one] at he
        by_cases hrole : py_lower (py_strip (role?.getD "")) = ""
        · simp [hrole] at he
        · simp only [hrole, if_false, ite_false] at he
          by_cases hc : py_strip c = ""
          · simp [hc] at he
          · simp only [hc, if_false, ite_false, Option.some_inj] at he
            subst he
            refine ⟨?_, hc⟩
            by_cases hr : py_lower (py_strip (role?.getD "")) = "user" ∨
                py_lower (py_strip (role?.getD "")) = "assistant" ∨
                py_lower (py_strip (role?.getD "")) = "system"
            · simp [hr]
            · simp [hr]
  · intro r c hstrip
    by_cases hrole : py_lower (py_strip (r.getD "")) = ""
    · simp [normalize_one, hrole]
    · simp [normalize_one, hrole, hstrip]
  · intro r c hrole
    cases c with
    | none => simp [normalize_one]
    | some c => simp [normalize_one, hrole]
  · intro r c hc
    intro role hrole hother
    simp only [normalize_one, hrole, if_false, ite_false, hc, hother]

/-- Witness for `normalize_memory_context_spec`: a mixed pool with a
non-dict entry, an empty-content entry and an unknown role. -/
theorem normalize_memory_context_spec_witness :
    (∀ m ∈ normalize_memory_context
        [.notDict, .entry (some "tool") (some " remembered fact "),
         .entry (some "user") (some "   "), .entry (some "assistant") none],
      (m.role = "user" ∨ m.role = "assistant" ∨ m.role = "system") ∧ m.content ≠ "") ∧
    normalize_one (.entry (some "user") (some "   ")) = none := by
  constructor
  · exact (normalize_memory_context_spec
      [.notDict, .entry (some "tool") (some " remembered fact "),
       .entry (some "user") (some "   "), .entry (some "assistant") none]).1
  · exact (normalize_memory_context_spec []).2.2.2.1 (some "user") "   " (by rfl)

/-- One attempt of the streamed exchange in `AIClient.generate_reply_stream`
(lines 259-321): `chunks` are the `content` fragments extracted from the
server-sent-event data lines in arrival order (the HTTP/JSON layer is the
external input of the transport), and `errored` is `some e` when the
exchange raised after those fragments (transport error, HTTP >= 400, or a
mid-stream break) and `none` when the stream closed cleanly.  Falsy
(empty) fragments are skipped by `if not chunk: continue` before being
yielded. -/
structure StreamAttempt where
  chunks : List String
  errored : Option String
  deriving Repr, DecidableEq

/-- Observable outcome of a full `generate_reply_stream` consumption: the
fragments yielded to the caller, the `(user_text, reply)` pairs passed to
`_append_history`, the backoff sleeps, and the number of HTTP attempts. -/
structure StreamResult where
  yielded : List String
  appends : List (String × String)
  sleeps : List ℚ
  attempts : ℕ
  deriving Repr, DecidableEq

/-- The retry loop of `generate_reply_stream._stream` (lines 259-324).
`sent_any` is the flag set when a fragment has been yielded; on an error
with `sent_any` set the loop commits the stripped partial reply (if
non-empty) and stops instead of retrying. -/
def stream_go (t : ℕ → StreamAttempt) (u : String) (max_retries : ℕ) :
    ℕ → ℕ → Bool → List String → List ℚ → StreamResult
  | 0, attempt, _, ys, sleeps => ⟨ys, [], sleeps, attempt⟩
  | fuel + 1, attempt, sent_any, ys, sleeps =>
    let parts := (t attempt).chunks.filter (fun c => c ≠ "")
    let sent := sent_any || !parts.isEmpty
    match (t attempt).errored with
    | some _ =>
      if sent then
        let part_reply := py_strip (String.join parts)
        ⟨ys ++ parts, if part_reply = "" then [] else [(u, part_reply)],
          sleeps, attempt + 1⟩
      else
        if attempt < max_retries then
          stream_go t u max_retries fuel (attempt + 1) sent (ys ++ parts)
            (sleeps ++ [backoff_wait attempt])
        else
          stream_go t u max_retries fuel (attempt + 1) sent (ys ++ parts) sleeps
    | none =>
      let reply := py_strip (String.join parts)
      if reply ≠ "" then ⟨ys ++ parts, [(u, reply)], sleeps, attempt + 1⟩
      else if sent then ⟨ys ++ parts, [], sleeps, attempt + 1⟩
      else if attempt < max_retries then
        stream_go t u max_retries fuel (attempt + 1) sent (ys ++ parts)
          (sleeps ++ [backoff_wait attempt])
      else
        stream_go t u max_retries fuel (attempt + 1) sent (ys ++ parts) sleeps

/-- Embeds `AIClient.generate_reply_stream` (lines 225-326), observed through a
full consumption of the returned iterator. -/
def generate_reply_stream (t : ℕ → StreamAttempt) (u : String)
    (max_retries : ℕ) : StreamResult :=
  stream_go t u max_retries (max_retries + 1) 0 false [] []

/-- A streamed attempt that yields no usable fragment (whether it errors or
ends empty) retries like the synchronous loop. -/
lemma stream_go_skip_step (t : ℕ → StreamAttempt) (u : String) (mr : ℕ)
    (fuel attempt : ℕ) (ys : List String) (sleeps : List ℚ)
    (hparts : (t attempt).chunks.filter (fun c => c ≠ "") = []) :
    stream_go t u mr (fuel + 1) attempt false ys sleeps =
      if attempt < mr then
        stream_go t u mr fuel (attempt + 1) false ys (sleeps ++ [backoff_wait attempt])
      else stream_go t u mr fuel (attempt + 1) false ys sleeps := by
  have hparts' : (t attempt).chunks.filter (fun c => !decide (c = "")) = [] := by
    simpa using hparts
  cases he : (t attempt).errored with
  | some e => simp [stream_go, he, hparts']
  | none => simp [stream_go, he, hparts', py_strip, String.join]

/-- A streamed attempt that errors after yielding at least one fragment
commits the stripped partial reply (when non-empty) and stops. -/
lemma stream_go_commit_step (t : ℕ → StreamAttempt) (u : String) (mr : ℕ)
    (fuel attempt : ℕ) (sa : Bool) (ys : List String) (sleeps : List ℚ) (e : String)
    (hp : (t attempt).chunks.filter (fun c => c ≠ "") ≠ [])
    (he : (t attempt).errored = some e) :
    stream_go t u mr (fuel + 1) attempt sa ys sleeps =
      ⟨ys ++ (t attempt).chunks.filter (fun c => c ≠ ""),
        if py_strip (String.join ((t attempt).chunks.filter (fun c => c ≠ ""))) = ""
        then [] else [(u, py_strip (String.join ((t attempt).chunks.filter (fun c => c ≠ ""))))],
        sleeps, attempt + 1⟩ := by
  have hex : ∃ x ∈ (t attempt).chunks, ¬x = "" := by
    obtain ⟨x, hx⟩ := List.exists_mem_of_ne_nil _ hp
    rw [List.mem_filter] at hx
    exact ⟨x, hx.1, by simpa using hx.2⟩
  simp [stream_go, he, hex]

/-- Running the streamed retry loop when every remaining attempt produces
no usable fragment: all remaining attempts are made with the synchronous
backoff schedule and nothing is committed. -/
lemma stream_go_all_empty (t : ℕ → StreamAttempt) (u : String) (mr : ℕ)
    (hall : ∀ j, j ≤ mr → (t j).chunks.filter (fun c => c ≠ "") = []) :
    ∀ (fuel attempt : ℕ) (ys : List String) (sleeps : List ℚ),
      attempt + (fuel + 1) = mr + 1 →
      stream_go t u mr (fuel + 1) attempt false ys sleeps =
        ⟨ys, [], sleeps ++ (List.range' attempt (mr - attempt)).map backoff_wait,
          mr + 1⟩ := by
  intro fuel
  induction fuel with
  | zero =>
    intro attempt ys sleeps hsum
    have ha : attempt = mr := by omega
    subst ha
    rw [stream_go_skip_step t u attempt 0 attempt ys sleeps (hall attempt le_rfl)]
    simp [stream_go]
  | succ fuel ih =>
    intro attempt ys sleeps hsum
    have hamr : attempt < mr := by omega
    have hrange : (List.range' attempt (mr - attempt)).map backoff_wait =
        backoff_wait attempt :: (List.range' (attempt + 1) (mr - (attempt + 1))).map backoff_wait := by
      have h1 : mr - attempt = (mr - (attempt + 1)) + 1 := by omega
      rw [h1, List.range'_succ attempt (mr - (attempt + 1)) 1]
      simp
    rw [stream_go_skip_step t u mr (fuel + 1) attempt ys sleeps
      (hall attempt (le_of_lt hamr)), if_pos hamr,
      ih (attempt + 1) ys (sleeps ++ [backoff_wait attempt]) (by omega), hrange]
    simp

/-- Running the streamed retry loop up to a first fragment-yielding attempt
`k` that then errors: the loop stops at attempt `k + 1` and commits exactly
the stripped concatenation of attempt `k`'s fragments, when non-empty. -/
lemma stream_go_first_commit (t : ℕ → StreamAttempt) (u : String) (mr : ℕ)
    (k : ℕ) (e : String)
    (hp : (t k).chunks.filter (fun c => c ≠ "") ≠ [])
    (he : (t k).errored = some e) :
    ∀ (fuel attempt : ℕ) (ys : List String) (sleeps : List ℚ),
      attempt + fuel = mr + 1 → attempt ≤ k → k ≤ mr →
      (∀ j, attempt ≤ j → j < k → (t j).chunks.filter (fun c => c ≠ "") = []) →
      stream_go t u mr fuel attempt false ys sleeps =
        ⟨ys ++ (t k).chunks.filter (fun c => c ≠ ""),
          if py_strip (String.join ((t k).chunks.filter (fun c => c ≠ ""))) = ""
          then []
          else [(u, py_strip (String.join ((t k).chunks.filter (fun c => c ≠ ""))))],
          sleeps ++ (List.range' attempt (k - attempt)).map backoff_wait,
          k + 1⟩ := by
  intro fuel
  induction fuel with
  | zero =>
    intro attempt ys sleeps hsum hak hkmr hprev
    omega
  | succ fuel ih =>
    intro attempt ys sleeps hsum hak hkmr hprev
    rcases eq_or_lt_of_le hak with hek | hlt
    · subst hek
      rw [stream_go_commit_step t u mr fuel attempt false ys sleeps e hp he]
      simp
    · have hamr : attempt < mr := lt_of_lt_of_le hlt hkmr
      have hrange : (List.range' attempt (k - attempt)).map backoff_wait =
          backoff_wait attempt :: (List.range' (attempt + 1) (k - (attempt + 1))).map backoff_wait := by
        have h1 : k - attempt = (k - (attempt + 1)) + 1 := by omega
        rw [h1, List.range'_succ attempt (k - (attempt + 1)) 1]
        simp
      rw [stream_go_skip_step t u mr fuel attempt ys sleeps
        (hprev attempt le_rfl hlt), if_pos hamr,
        ih (attempt + 1) ys (sleeps ++ [backoff_wait attempt]) (by omega) hlt hkmr
          (fun j hj hjk => hprev j (by omega) hjk), hrange]
      simp

/-- Counterexample to C4 as stated: a stream yields the single fragment
`" "` and then breaks.  The concatenation of the yielded fragments is
`" "`, but nothing is committed to history (the code commits the *stripped*
concatenation and only when it is non-empty); the request is indeed not
retried. -/
theorem generate_reply_stream_counterexample :
    (generate_reply_stream (fun _ => ⟨[" "], some "broken pipe"⟩) "u" 2).yielded = [" "] ∧
    (generate_reply_stream (fun _ => ⟨[" "], some "broken pipe"⟩) "u" 2).attempts = 1 ∧
    (generate_reply_stream (fun _ => ⟨[" "], some "broken pipe"⟩) "u" 2).appends = [] ∧
    (generate_reply_stream (fun _ => ⟨[" "], some "broken pipe"⟩) "u" 2).appends ≠
      [("u", String.join
        (generate_reply_stream (fun _ => ⟨[" "], some "broken pipe"⟩) "u" 2).yielded)] := by
  refine ⟨rfl, rfl, rfl, ?_⟩
  decide

/-- C4 (amended): if a streamed exchange errors after at least one fragment
was yielded, no retry happens and the *stripped* concatenation of the
yielded fragments is committed as the assistant turn when it is non-empty
(nothing is committed when it strips to empty); if every attempt fails
before yielding any fragment, the request is retried under the synchronous
backoff schedule and nothing is committed. -/
theorem generate_reply_stream_spec (t : ℕ → StreamAttempt) (u : String) (n : ℕ) :
    (∀ k e, k ≤ n →
      (∀ j, j < k → (t j).chunks.filter (fun c => c ≠ "") = []) →
      (t k).chunks.filter (fun c => c ≠ "") ≠ [] →
      (t k).errored = some e →
      (generate_reply_stream t u n).attempts = k + 1 ∧
      (generate_reply_stream t u n).yielded = (t k).chunks.filter (fun c => c ≠ "") ∧
      (generate_reply_stream t u n).appends =
        (if py_strip (String.join ((t k).chunks.filter (fun c => c ≠ ""))) = ""
         then []
         else [(u, py_strip (String.join ((t k).chunks.filter (fun c => c ≠ ""))))])) ∧
    ((∀ j, j ≤ n → (t j).chunks.filter (fun c => c ≠ "") = []) →
      (generate_reply_stream t u n).attempts = n + 1 ∧
      (generate_reply_stream t u n).appends = [] ∧
      (generate_reply_stream t u n).sleeps = (List.range n).map backoff_wait) := by
  constructor
  · intro k e hk hprev hp he
    have h := stream_go_first_commit t u n k e hp he (n + 1) 0 [] []
      (by omega) (Nat.zero_le k) hk (fun j _ hjk => hprev j hjk)
    unfold generate_reply_stream
    rw [h]
    simp
  · intro hall
    have h := stream_go_all_empty t u n hall n 0 [] [] (by omega)
    unfold generate_reply_stream
    rw [h]
    refine ⟨rfl, rfl, ?_⟩
    simp [List.range_eq_range']

/-- Witness for `generate_reply_stream_spec`: a stream that yields `"Hel"`
then breaks commits `"Hel"` without retrying; a stream that always breaks
before yielding runs all three attempts with two backoff sleeps. -/
theorem generate_reply_stream_spec_witness :
    (generate_reply_stream (fun _ => ⟨["Hel"], some "broken pipe"⟩) "u" 2).attempts = 1 ∧
    (generate_reply_stream (fun _ => ⟨["Hel"], some "broken pipe"⟩) "u" 2).appends =
      [("u", "Hel")] ∧
    (generate_reply_stream (fun _ => ⟨[], some "conn reset"⟩) "u" 2).attempts = 3 ∧
    (generate_reply_stream (fun _ => ⟨[], some "conn reset"⟩) "u" 2).sleeps =
      [backoff_wait 0, backoff_wait 1] := by
  have h1 := (generate_reply_stream_spec (fun _ => ⟨["Hel"], some "broken pipe"⟩) "u" 2).1
    0 "broken pipe" (by omega) (fun j hj => by omega) (by decide) rfl
  have h2 := (generate_reply_stream_spec (fun _ => ⟨[], some "conn reset"⟩) "u" 2).2
    (fun j _ => rfl)
  refine ⟨h1.1, ?_, h2.1, ?_⟩
  · rw [h1.2.2]
    decide
  · rw [h2.2.2]
    rfl

/-- The effect of a Python `deque(l, maxlen=n)`: keep the last `n`
elements. -/
def take_last (n : ℕ) (l : List α) : List α :=
  l.drop (l.length - n)

/-- Embeds `AIClient._append_history` (lines 399-413) restricted to the stored
turn list of one conversation: rebuild the deque with
`maxlen = max(1, context_rounds) * 2`, append the user and assistant
turns, and re-trim by tokens when `context_max_tokens` is configured.
(The registry-level effects — touch and prune — are modelled separately on
`Registry`.) -/
def append_history (context_rounds : ℤ) (context_max_tokens : Option ℤ)
    (old : List Msg) (user_text reply : String) : List Msg :=
  let max_messages := (max 1 context_rounds).toNat * 2
  let history := take_last max_messages
    (take_last max_messages old ++ [⟨"user", user_text⟩, ⟨"assistant", reply⟩])
  match context_max_tokens with
  | some m => take_last max_messages (trim_history_by_tokens history m)
  | none => history

/-- The function `take_last` never returns more than `n` elements. -/
lemma take_last_length_le (n : ℕ) (l : List α) : (take_last n l).length ≤ n := by
  simp only [take_last, List.length_drop]
  omega

/-- The function `take_last` returns a contiguous suffix. -/
lemma take_last_suffix (n : ℕ) (l : List α) : take_last n l <:+ l :=
  List.drop_suffix _ l

/-- Appending on the right preserves the suffix relation. -/
lemma suffix_append_right {l s : List α} (x : List α) (h : s <:+ l) :
    s ++ x <:+ l ++ x := by
  obtain ⟨pre, hpre⟩ := h
  exact ⟨pre, by rw [← hpre, List.append_assoc]⟩

/-- Counterexample to C7 as stated: with `context_rounds = 0` the code
keeps `max(1, 0) * 2 = 2` turns after an append, which exceeds the claimed
bound `2 * contextRounds = 0`. -/
theorem append_history_counterexample :
    (append_history 0 none [] "hi" "there").length = 2 ∧
    ¬((append_history 0 none [] "hi" "there").length ≤ 2 * (0 : ℤ).toNat) := by
  decide

/-- C7 (amended): after every append the stored history holds at most
`2 * max 1 contextRounds` turns, and the retained turns are a contiguous
suffix of the previous history followed by the new user/assistant pair
(i.e. the most recent turns, oldest dropped first). -/
theorem append_history_spec (cr : ℤ) (cmt : Option ℤ) (old : List Msg)
    (u a : String) :
    (append_history cr cmt old u a).length ≤ 2 * (max 1 cr).toNat ∧
    append_history cr cmt old u a <:+ old ++ [⟨"user", u⟩, ⟨"assistant", a⟩] := by
  have hsuffix1 : take_last ((max 1 cr).toNat * 2)
      (take_last ((max 1 cr).toNat * 2) old ++ [⟨"user", u⟩, ⟨"assistant", a⟩]) <:+
      old ++ [⟨"user", u⟩, ⟨"assistant", a⟩] :=
    List.IsSuffix.trans (take_last_suffix _ _)
      (suffix_append_right _ (take_last_suffix _ old))
  constructor
  · cases cmt with
    | none =>
      simpa [append_history, Nat.mul_comm] using
        take_last_length_le ((max 1 cr).toNat * 2) _
    | some m =>
      simpa [append_history, Nat.mul_comm] using
        take_last_length_le ((max 1 cr).toNat * 2) _
  · cases cmt with
    | none => simpa [append_history] using hsuffix1
    | some m =>
      simp only [append_history]
      exact List.IsSuffix.trans
        (List.IsSuffix.trans (take_last_suffix _ _) (trim_history_suffix _ m))
        hsuffix1

/-- First-match lookup in an association list (Python dict access; keys are
unique in a dict, so first match is the only match). -/
def assoc_get {α : Type} : List (String × α) → String → Option α
  | [], _ => none
  | p :: rest, k => if p.1 = k then some p.2 else assoc_get rest k

/-- Python `dict.pop(k, None)`: remove the entry with key `k`. -/
def assoc_erase {α : Type} (l : List (String × α)) (k : String) : List (String × α) :=
  l.filter (fun p => decide (p.1 ≠ k))

/-- Python `d[k] = v`: replace in place when present (insertion order kept),
else append at the end. -/
def assoc_set {α : Type} (l : List (String × α)) (k : String) (v : α) : List (String × α) :=
  if (assoc_get l k).isSome then
    l.map (fun p => if p.1 = k then (k, v) else p)
  else l ++ [(k, v)]

/-- Python `OrderedDict.move_to_end`, guarded by presence as at line 416-417. -/
def move_to_end {α : Type} (l : List (String × α)) (k : String) : List (String × α) :=
  match assoc_get l k with
  | none => l
  | some v => assoc_erase l k ++ [(k, v)]

/-- The conversation registry of `AIClient` (lines 100-102): `_histories`
as an `OrderedDict` in least-recently-used-first order, `_history_timestamps`,
and `_chat_locks` keyed by chat id (a lock is identified by an allocation
number standing for the `asyncio.Lock` object identity). -/
structure Registry where
  histories : List (String × List Msg)
  timestamps : List (String × ℚ)
  locks : List (String × ℕ)
  deriving Repr, DecidableEq

/-- Embeds `AIClient._touch_history` (lines 415-418). -/
def touch_history (now : ℚ) (id : String) (st : Registry) : Registry :=
  { st with
    histories := move_to_end st.histories id,
    timestamps := assoc_set st.timestamps id now }

/-- The TTL sweep of `AIClient._prune_histories` (lines 421-431); `ttl` is
`none` when `history_ttl_sec` is falsy. -/
def ttl_sweep (ttl : Option ℚ) (now : ℚ) (st : Registry) : Registry :=
  match ttl with
  | none => st
  | some T =>
    let cutoff := now - T
    let expired := (st.timestamps.filter (fun p => decide (p.2 < cutoff))).map (fun p => p.1)
    { histories := st.histories.filter (fun p => decide (p.1 ∉ expired)),
      timestamps := st.timestamps.filter (fun p => decide (p.1 ∉ expired)),
      locks := st.locks.filter (fun p => decide (p.1 ∉ expired)) }

/-- The LRU size trim of `AIClient._prune_histories` (lines 433-436): pop
from the least-recently-used end while over `history_max_chats`, dropping
the matching timestamps and locks. -/
def lru_trim (max_chats : ℕ) (st : Registry) : Registry :=
  let dropped := (st.histories.take (st.histories.length - max_chats)).map (fun p => p.1)
  { histories := st.histories.drop (st.histories.length - max_chats),
    timestamps := st.timestamps.filter (fun p => decide (p.1 ∉ dropped)),
    locks := st.locks.filter (fun p => decide (p.1 ∉ dropped)) }

/-- Embeds `AIClient._prune_histories` (lines 420-436). -/
def prune_histories (ttl : Option ℚ) (max_chats : ℕ) (now : ℚ) (st : Registry) : Registry :=
  lru_trim max_chats (ttl_sweep ttl now st)

/-- Embeds `AIClient._get_chat_lock` (lines 110-115): return the registered lock,
or create a fresh one (`next_lock` is the fresh allocation counter). -/
def get_chat_lock (st : Registry) (next_lock : ℕ) (id : String) : ℕ × Registry × ℕ :=
  match assoc_get st.locks id with
  | some l => (l, st, next_lock)
  | none => (next_lock, { st with locks := st.locks ++ [(id, next_lock)] }, next_lock + 1)

/-- The registry-level effect of `AIClient._append_history` (lines 399-413):
store the new turn list for `chat_id`, touch it, then prune. -/
def append_history_op (cr : ℤ) (cmt : Option ℤ) (ttl : Option ℚ) (max_chats : ℕ)
    (now : ℚ) (id : String) (u a : String) (st : Registry) : Registry :=
  let old := (assoc_get st.histories id).getD []
  let st1 := { st with histories := assoc_set st.histories id (append_history cr cmt old u a) }
  prune_histories ttl max_chats now (touch_history now id st1)

/-- The timestamp recorded for a chat id (0 when absent). -/
def ts_of (st : Registry) (id : String) : ℚ :=
  (assoc_get st.timestamps id).getD 0

/-- Erasing a present key strictly shrinks an association list. -/
lemma assoc_erase_length_lt {α : Type} (l : List (String × α)) (k : String) (v : α)
    (h : assoc_get l k = some v) : (assoc_erase l k).length < l.length := by
  induction l with
  | nil => simp [assoc_get] at h
  | cons p rest ih =>
    by_cases hp : p.1 = k
    · have hdrop : assoc_erase (p :: rest) k = assoc_erase rest k := by
        simp [assoc_erase, List.filter_cons, hp]
      rw [hdrop, List.length_cons]
      have hle := List.length_filter_le (fun q : String × α => decide (q.1 ≠ k)) rest
      simp only [assoc_erase]
      omega
    · simp only [assoc_get, hp, if_false, ite_false] at h
      have ihlt := ih h
      have hkeep : assoc_erase (p :: rest) k = p :: assoc_erase rest k := by
        simp [assoc_erase, List.filter_cons, hp]
      rw [hkeep, List.length_cons, List.length_cons]
      omega

/-- Setting a key makes it retrievable with the new value. -/
lemma assoc_get_set {α : Type} (l : List (String × α)) (k : String) (v : α) :
    assoc_get (assoc_set l k v) k = some v := by
  induction l with
  | nil => simp [assoc_set, assoc_get]
  | cons p rest ih =>
    by_cases hp : p.1 = k
    · simp [assoc_set, assoc_get, hp]
    · by_cases hs : (assoc_get rest k).isSome
      · have hg : assoc_get (p :: rest) k = assoc_get rest k := by
          simp [assoc_get, hp]
        simp only [assoc_set, hg, hs, if_true, ite_true] at ih ⊢
        simp only [List.map_cons, hp, if_false, ite_false, assoc_get]
        simpa [hp] using ih
      · have hg : assoc_get (p :: rest) k = assoc_get rest k := by
          simp [assoc_get, hp]
        simp only [assoc_set, hg, hs, if_false, ite_false] at ih ⊢
        simp only [List.cons_append, assoc_get, hp, if_false, ite_false]
        exact ih

/-- C8: registry-size and eviction-order invariants of `_prune_histories` /
`_touch_history` / `_append_history`: after a prune (hence after any
append) at most `max_chats` conversations remain; touching never grows the
registry and moves the touched conversation to the most-recent end with a
fresh timestamp; a conversation whose timestamp is older than the TTL
cutoff is absent after the sweep; and the LRU trim drops conversations
from the least-recently-touched end, so (when the list order is consistent
with the timestamps, as the touch discipline maintains) every evicted
conversation is no younger than every survivor. -/
theorem registry_mutation_spec (ttl : Option ℚ) (mc : ℕ) (now : ℚ) (st : Registry)
    (id u a : String) (cr : ℤ) (cmt : Option ℤ) :
    (prune_histories ttl mc now st).histories.length ≤ mc ∧
    (append_history_op cr cmt ttl mc now id u a st).histories.length ≤ mc ∧
    (touch_history now id st).histories.length ≤ st.histories.length ∧
    (∀ v, assoc_get st.histories id = some v →
      (touch_history now id st).histories.getLast? = some (id, v)) ∧
    assoc_get (touch_history now id st).timestamps id = some now ∧
    (∀ cid ts T, ttl = some T → (cid, ts) ∈ st.timestamps → ts < now - T →
      ∀ h, (cid, h) ∉ (prune_histories ttl mc now st).histories) ∧
    (prune_histories ttl mc now st).histories <:+ (ttl_sweep ttl now st).histories ∧
    ((ttl_sweep ttl now st).histories.Pairwise
        (fun p q => ts_of (ttl_sweep ttl now st) p.1 ≤ ts_of (ttl_sweep ttl now st) q.1) →
      ∀ p ∈ (ttl_sweep ttl now st).histories.take
          ((ttl_sweep ttl now st).histories.length - mc),
        ∀ q ∈ (prune_histories ttl mc now st).histories,
          ts_of (ttl_sweep ttl now st) p.1 ≤ ts_of (ttl_sweep ttl now st) q.1) := by
  refine ⟨?_, ?_, ?_, ?_, ?_, ?_, ?_, ?_⟩
  · simp only [prune_histories, lru_trim, List.length_drop]
    omega
  · simp only [append_history_op, prune_histories, lru_trim, List.length_drop]
    omega
  · cases hg : assoc_get st.histories id with
    | none => simp [touch_history, move_to_end, hg]
    | some v =>
      have := assoc_erase_length_lt st.histories id v hg
      simp only [touch_history, move_to_end, hg, List.length_append,
        List.length_cons, List.length_nil]
      omega
  · intro v hv
    simp only [touch_history, move_to_end, hv]
    exact List.getLast?_concat _
  · exact assoc_get_set st.timestamps id now
  · intro cid ts T hT hmem hlt h hcontra
    have hsw : (cid, h) ∈ (ttl_sweep ttl now st).histories := by
      have : (prune_histories ttl mc now st).histories =
          (ttl_sweep ttl now st).histories.drop
            ((ttl_sweep ttl now st).histories.length - mc) := rfl
      rw [this] at hcontra
      exact List.mem_of_mem_drop hcontra
    subst hT
    simp only [ttl_sweep, List.mem_filter, decide_eq_true_eq] at hsw
    apply hsw.2
    simp only [List.mem_map]
    exact ⟨(cid, ts), by simp [List.mem_filter, hmem, hlt], rfl⟩
  · exact List.drop_suffix _ _
  · intro hpw p hp q hq
    have hsplit : (ttl_sweep ttl now st).histories.take
          ((ttl_sweep ttl now st).histories.length - mc) ++
        (ttl_sweep ttl now st).histories.drop
          ((ttl_sweep ttl now st).histories.length - mc) =
        (ttl_sweep ttl now st).histories := List.take_append_drop _ _
    have hpw' : ((ttl_sweep ttl now st).histories.take
          ((ttl_sweep ttl now st).histories.length - mc) ++
        (ttl_sweep ttl now st).histories.drop
          ((ttl_sweep ttl now st).histories.length - mc)).Pairwise
        (fun p q => ts_of (ttl_sweep ttl now st) p.1 ≤ ts_of (ttl_sweep ttl now st) q.1) := by
      rw [hsplit]
      exact hpw
    exact (List.pairwise_append.mp hpw').2.2 p hp q hq

/-- Witness for `registry_mutation_spec`: a two-conversation registry with
`max_chats = 1` (the older conversation is evicted) and a TTL-expired
single conversation. -/
theorem registry_mutation_spec_witness :
    (prune_histories none 1 20
      ⟨[("a", []), ("b", [])], [("a", 1), ("b", 5)], []⟩).histories.length ≤ 1 ∧
    ts_of (ttl_sweep none 20 ⟨[("a", []), ("b", [])], [("a", 1), ("b", 5)], []⟩) "a" ≤
      ts_of (ttl_sweep none 20 ⟨[("a", []), ("b", [])], [("a", 1), ("b", 5)], []⟩) "b" ∧
    ("a", ([] : List Msg)) ∉
      (prune_histories (some 10) 200 20 ⟨[("a", [])], [("a", 1)], []⟩).histories := by
  have h1 := registry_mutation_spec none 1 20
    ⟨[("a", []), ("b", [])], [("a", 1), ("b", 5)], []⟩ "b" "x" "y" 5 none
  have h2 := registry_mutation_spec (some 10) 200 20
    ⟨[("a", [])], [("a", 1)], []⟩ "a" "x" "y" 5 none
  refine ⟨h1.1, ?_, ?_⟩
  · exact h1.2.2.2.2.2.2.2 (by decide) ("a", []) (by decide) ("b", []) (by decide)
  · exact h2.2.2.2.2.2.1 "a" 1 10 rfl (by decide) (by norm_num) []

/-- C1 evaluated on the code: `_prune_histories` pops the `_chat_locks`
entry of an evicted conversation without checking whether that lock is
held.  Scenario: conversation `"c"` was last touched at time 0; a pipeline
acquires its lock (allocation 0) and — still holding it — a TTL sweep at
time 172800 with `history_ttl_sec = 86400` runs (as `_build_messages` line
356 or the periodic `prune_histories` in src/main.py line 1967 do).  The
sweep deletes `"c"` together with its lock entry, and a subsequent
`_get_chat_lock("c")` hands out a fresh lock (allocation 1) distinct from
the held one, so a second pipeline execution for `"c"` can start while the
first is still in flight — contradicting the claim. -/
theorem prune_removes_held_lock :
    get_chat_lock ⟨[("c", [⟨"user", "hi"⟩])], [("c", 0)], []⟩ 0 "c" =
      (0, ⟨[("c", [⟨"user", "hi"⟩])], [("c", 0)], [("c", 0)]⟩, 1) ∧
    prune_histories (some 86400) 200 172800
      ⟨[("c", [⟨"user", "hi"⟩])], [("c", 0)], [("c", 0)]⟩ = ⟨[], [], []⟩ ∧
    get_chat_lock ⟨[], [], []⟩ 1 "c" = (1, ⟨[], [], [("c", 1)]⟩, 2) ∧
    (1 : ℕ) ≠ 0 := by
  refine ⟨rfl, ?_, rfl, by decide⟩
  have hlt : ((0 : ℚ) < 172800 - 86400) := by norm_num
  have hsweep : ttl_sweep (some 86400) 172800
      (⟨[("c", [⟨"user", "hi"⟩])], [("c", 0)], [("c", 0)]⟩ : Registry) = ⟨[], [], []⟩ := by
    simp [ttl_sweep, List.filter, hlt]
  rw [prune_histories, hsweep]
  rfl

/-- The per-conversation pending-merge state of src/main.py
(`pending_merge_messages`, `pending_merge_first_ts` and the scheduled
`wait_and_reply` task): the accumulated texts, the first arrival time, and
the absolute time the pending timer fires. -/
structure MergeState where
  texts : List String
  first_ts : ℚ
  fire_at : ℚ
  deriving Repr, DecidableEq

/-- One pipeline execution produced by `wait_and_reply`: its batch's first
arrival time, the time the flush fired, and the combined text handed to
`handle_event`. -/
structure Flush where
  first_ts : ℚ
  fired_at : ℚ
  text : String
  deriving Repr, DecidableEq

/-- The delay computation of `schedule_merged_reply` (lines 1693-1700):
`delay = merge_user_messages_sec`, capped by the remaining part of
`merge_user_messages_max_wait_sec` measured from `first_ts` (zero once the
max wait has passed); no cap when `max_wait <= 0`. -/
def compute_delay (window max_wait now first_ts : ℚ) : ℚ :=
  if 0 < max_wait then
    let remaining := max_wait - (now - first_ts)
    if remaining ≤ 0 then 0 else min window remaining
  else window

/-- The flush body of `wait_and_reply` (lines 1706-1723): join the pending
texts with newline, strip, and run the pipeline unless empty. -/
def flush_of (st : MergeState) : List Flush :=
  let combined := py_strip (String.intercalate "\n" st.texts)
  if combined = "" then [] else [⟨st.first_ts, st.fire_at, combined⟩]

/-- Discrete-event run of `schedule_merged_reply` / `wait_and_reply` for one
conversation over time-ordered arrivals `(time, text)`.  A pending timer
due at or before the next arrival fires first (the model's resolution of
the event-loop race); otherwise the arrival cancels and restarts the timer
with the capped delay.  The trailing pending state flushes at its timer. -/
def coalesce_run (window max_wait : ℚ) :
    List (ℚ × String) → Option MergeState → List Flush
  | [], none => []
  | [], some st => flush_of st
  | (tm, s) :: rest, none =>
    coalesce_run window max_wait rest
      (some ⟨[s], tm, tm + compute_delay window max_wait tm tm⟩)
  | (tm, s) :: rest, some st =>
    if st.fire_at ≤ tm then
      flush_of st ++ coalesce_run window max_wait rest
        (some ⟨[s], tm, tm + compute_delay window max_wait tm tm⟩)
    else
      coalesce_run window max_wait rest
        (some ⟨st.texts ++ [s], st.first_ts,
          tm + compute_delay window max_wait tm st.first_ts⟩)

/-- Embeds `schedule_merged_reply` observed from an idle conversation. -/
def schedule_merged_run (window max_wait : ℚ) (arrivals : List (ℚ × String)) :
    List Flush :=
  coalesce_run window max_wait arrivals none

/-- The delay of a first (state-creating) arrival is at most the merge
window. -/
lemma compute_delay_first_le (w mw t : ℚ) : compute_delay w mw t t ≤ w := by
  unfold compute_delay
  by_cases hmw : 0 < mw
  · have hr : mw - (t - t) = mw := by ring
    simp only [hmw, if_true, ite_true, hr, not_le.mpr hmw, if_false, ite_false]
    exact min_le_left w mw
  · simp [hmw]

/-- The delay of a first arrival never exceeds the max wait (when a max
wait is configured). -/
lemma compute_delay_fresh_le_mw (w mw t : ℚ) (hmw : 0 < mw) :
    t + compute_delay w mw t t ≤ t + mw := by
  unfold compute_delay
  have hr : mw - (t - t) = mw := by ring
  simp only [hmw, if_true, ite_true, hr, not_le.mpr hmw, if_false, ite_false]
  have := min_le_right w mw
  linarith

/-- A restarted timer stays within `first_ts + max_wait` as long as the
arrival itself is within the ceiling. -/
lemma compute_delay_cap (w mw tm first : ℚ) (hmw : 0 < mw) (h : tm < first + mw) :
    tm + compute_delay w mw tm first ≤ first + mw := by
  unfold compute_delay
  have hrem : ¬(mw - (tm - first) ≤ 0) := by linarith
  simp only [hmw, if_true, ite_true, hrem, if_false, ite_false]
  have := min_le_right w (mw - (tm - first))
  linarith

/-- Every emitted flush carries its pending state's first arrival and fire
times. -/
lemma flush_of_mem {st : MergeState} {f : Flush} (hf : f ∈ flush_of st) :
    f.first_ts = st.first_ts ∧ f.fired_at = st.fire_at := by
  unfold flush_of at hf
  by_cases hc : py_strip (String.intercalate "\n" st.texts) = ""
  · simp [hc] at hf
  · simp only [hc, if_false, ite_false, List.mem_singleton] at hf
    subst hf
    exact ⟨rfl, rfl⟩

/-- Counterexample to C6 as stated: with `merge_user_messages_sec = 5` and
`merge_user_messages_max_wait_sec = 1`, the messages "a", "b", "c" at times
0, 2, 4 each arrive within the merge window (gaps of 2 < 5) of the previous
one, yet the max-wait cap fires the timer at 1, 3 and 5, so the code
produces three pipeline executions instead of the claimed single merged
one. -/
theorem schedule_merged_counterexample :
    schedule_merged_run 5 1 [(0, "a"), (2, "b"), (4, "c")] =
      [⟨0, 1, "a"⟩, ⟨2, 3, "b"⟩, ⟨4, 5, "c"⟩] ∧
    (2 : ℚ) - 0 < 5 ∧ (4 : ℚ) - 2 < 5 := by
  refine ⟨?_, by norm_num, by norm_num⟩
  have hd : compute_delay 5 1 0 0 = 1 := by
    norm_num [compute_delay, min_def]
  have hd2 : compute_delay 5 1 2 2 = 1 := by
    norm_num [compute_delay, min_def]
  have hd4 : compute_delay 5 1 4 4 = 1 := by
    norm_num [compute_delay, min_def]
  have ha : py_strip ("\n".intercalate ["a"]) = "a" := rfl
  have hb : py_strip ("\n".intercalate ["b"]) = "b" := rfl
  have hc : py_strip ("\n".intercalate ["c"]) = "c" := rfl
  simp only [schedule_merged_run, coalesce_run, hd, hd2, hd4]
  norm_num [flush_of]
  simp [ha, hb, hc]

/-- Invariant run of the coalescer: when a max wait is configured, no
pending timer — and hence no emitted flush — ever exceeds
`first_ts + max_wait`. -/
lemma coalesce_fire_bound (w mw : ℚ) (hmw : 0 < mw) :
    ∀ (arrivals : List (ℚ × String)) (st : Option MergeState),
      (∀ s, st = some s → s.fire_at ≤ s.first_ts + mw) →
      ∀ f ∈ coalesce_run w mw arrivals st, f.fired_at ≤ f.first_ts + mw := by
  intro arrivals
  induction arrivals with
  | nil =>
    intro st hinv f hf
    cases st with
    | none => simp [coalesce_run] at hf
    | some s =>
      have h := flush_of_mem (by simpa [coalesce_run] using hf)
      rw [h.1, h.2]
      exact hinv s rfl
  | cons a rest ih =>
    obtain ⟨tm, s⟩ := a
    intro st hinv f hf
    cases st with
    | none =>
      simp only [coalesce_run] at hf
      refine ih _ ?_ f hf
      intro s' hs'
      rw [Option.some_inj] at hs'
      subst hs'
      exact compute_delay_fresh_le_mw w mw tm hmw
    | some stold =>
      by_cases hfire : stold.fire_at ≤ tm
      · simp only [coalesce_run, hfire, if_true, ite_true, List.mem_append] at hf
        rcases hf with hf1 | hf2
        · have h := flush_of_mem hf1
          rw [h.1, h.2]
          exact hinv stold rfl
        · refine ih _ ?_ f hf2
          intro s' hs'
          rw [Option.some_inj] at hs'
          subst hs'
          exact compute_delay_fresh_le_mw w mw tm hmw
      · simp only [coalesce_run, hfire, if_false, ite_false] at hf
        refine ih _ ?_ f hf
        intro s' hs'
        rw [Option.some_inj] at hs'
        subst hs'
        have h1 : stold.fire_at ≤ stold.first_ts + mw := hinv stold rfl
        have h2 : tm < stold.fire_at := not_le.mp hfire
        exact compute_delay_cap w mw tm stold.first_ts hmw (lt_of_lt_of_le h2 h1)

/-- C6 (amended): with coalescing enabled, messages "a", "b", "c" each
arriving within `mergeWindow` of the previous one — and, when the max-wait
cap is enabled, also before `firstSeenAt + maxWait` — produce exactly one
pipeline execution whose text is the three texts joined by newline; three
messages spaced more than `mergeWindow` apart produce three separate
executions; and no flush (however often the timer is restarted) ever fires
later than `firstSeenAt + maxWait` when the cap is enabled. -/
theorem schedule_merged_spec (w mw t0 t1 t2 : ℚ) :
    (0 < w → t0 < t1 → t1 < t2 → t1 - t0 < w → t2 - t1 < w →
      (mw ≤ 0 ∨ (t1 < t0 + mw ∧ t2 < t0 + mw)) →
      ∃ ft, schedule_merged_run w mw [(t0, "a"), (t1, "b"), (t2, "c")] =
        [⟨t0, ft, "a\nb\nc"⟩]) ∧
    (0 < w → w < t1 - t0 → w < t2 - t1 →
      ∃ f0 f1 f2, schedule_merged_run w mw [(t0, "a"), (t1, "b"), (t2, "c")] =
        [⟨t0, f0, "a"⟩, ⟨t1, f1, "b"⟩, ⟨t2, f2, "c"⟩]) ∧
    (0 < mw → ∀ (arrivals : List (ℚ × String)),
      ∀ f ∈ schedule_merged_run w mw arrivals, f.fired_at ≤ f.first_ts + mw) := by
  refine ⟨?_, ?_, ?_⟩
  · intro hw h01 h12 hg1 hg2 hcap
    have hf0 : ¬(t0 + compute_delay w mw t0 t0 ≤ t1) := by
      rcases hcap with hmw | ⟨hc1, hc2⟩
      · unfold compute_delay
        rw [if_neg (not_lt.mpr hmw)]
        push_neg
        linarith
      · have hmw : 0 < mw := by linarith
        unfold compute_delay
        have e : mw - (t0 - t0) = mw := by ring
        rw [if_pos hmw, e, if_neg (not_le.mpr hmw)]
        push_neg
        rcases min_cases w mw with ⟨he, _⟩ | ⟨he, _⟩ <;> rw [he] <;> linarith
    have hf1 : ¬(t1 + compute_delay w mw t1 t0 ≤ t2) := by
      rcases hcap with hmw | ⟨hc1, hc2⟩
      · unfold compute_delay
        rw [if_neg (not_lt.mpr hmw)]
        push_neg
        linarith
      · have hmw : 0 < mw := by linarith
        unfold compute_delay
        rw [if_pos hmw, if_neg (by push_neg; linarith : ¬(mw - (t1 - t0) ≤ 0))]
        push_neg
        rcases min_cases w (mw - (t1 - t0)) with ⟨he, _⟩ | ⟨he, _⟩ <;> rw [he] <;> linarith
    refine ⟨t2 + compute_delay w mw t2 t0, ?_⟩
    have habc : py_strip ("\n".intercalate ["a", "b", "c"]) = "a\nb\nc" := rfl
    simp only [schedule_merged_run, coalesce_run, hf0, hf1, if_false, ite_false]
    simp [flush_of, habc]
  · intro hw hb1 hb2
    have hd0 : t0 + compute_delay w mw t0 t0 ≤ t1 := by
      have := compute_delay_first_le w mw t0
      linarith
    have hd1 : t1 + compute_delay w mw t1 t1 ≤ t2 := by
      have := compute_delay_first_le w mw t1
      linarith
    refine ⟨t0 + compute_delay w mw t0 t0, t1 + compute_delay w mw t1 t1,
      t2 + compute_delay w mw t2 t2, ?_⟩
    have ha : py_strip ("\n".intercalate ["a"]) = "a" := rfl
    have hb : py_strip ("\n".intercalate ["b"]) = "b" := rfl
    have hc : py_strip ("\n".intercalate ["c"]) = "c" := rfl
    simp only [schedule_merged_run, coalesce_run, hd0, hd1, if_true, ite_true]
    simp [flush_of, ha, hb, hc]
  · intro hmw arrivals f hf
    exact coalesce_fire_bound w mw hmw arrivals none (by simp) f hf

/-- Witness for `schedule_merged_spec`: window 5, max wait 60; a burst at
times 0, 2, 4 merges into one execution, spaced arrivals at 0, 6, 12 give
three, and with max wait 1 every flush obeys the ceiling. -/
theorem schedule_merged_spec_witness :
    (∃ ft, schedule_merged_run 5 60 [(0, "a"), (2, "b"), (4, "c")] =
      [⟨0, ft, "a\nb\nc"⟩]) ∧
    (∃ f0 f1 f2, schedule_merged_run 5 60 [(0, "a"), (6, "b"), (12, "c")] =
      [⟨0, f0, "a"⟩, ⟨6, f1, "b"⟩, ⟨12, f2, "c"⟩]) ∧
    (∀ f ∈ schedule_merged_run 5 1 [(0, "a"), (2, "b"), (4, "c")],
      f.fired_at ≤ f.first_ts + 1) := by
  refine ⟨?_, ?_, ?_⟩
  · exact (schedule_merged_spec 5 60 0 2 4).1 (by norm_num) (by norm_num) (by norm_num)
      (by norm_num) (by norm_num) (Or.inr ⟨by norm_num, by norm_num⟩)
  · exact (schedule_merged_spec 5 60 0 6 12).2.1 (by norm_num) (by norm_num) (by norm_num)
  · intro f hf
    exact (schedule_merged_spec 5 1 0 2 4).2.2 (by norm_num) _ f hf

end WechatBot
